import Mathlib

/-!
Verification of the text layout and shaping pipeline implemented across the
six Rust examples of this repository (run segmentation with font fallback,
glyph capability checks, 26.6 fixed-point and font-unit conversion, glyph
placement, the RTL mirror transform, outline-to-path conversion, and error
propagation).  Real-number quantities computed by the Rust code in `f32`
are embedded as exact rationals; machine integers are embedded as `Nat`/`Int`
with explicit `% 2 ^ 16` where the code narrows with `as u16`.
-/

/-- One step of the run-splitting loop of example-2 (`src/example-2/src/main.rs`,
lines 67-83).  The state is `(runs, current_run, use_primary)`; `p c` embeds
`has_glyph(&primary_font, c)`. -/
def segStep (p : Char → Bool) (st : List (List Char × Bool) × List Char × Bool)
    (c : Char) : List (List Char × Bool) × List Char × Bool :=
  let runs := st.1
  let current := st.2.1
  let usePrimary := st.2.2
  let canPrimaryRender := p c
  if current.isEmpty then
    (runs, current ++ [c], canPrimaryRender)
  else if canPrimaryRender = usePrimary then
    (runs, current ++ [c], usePrimary)
  else
    (runs ++ [(current, usePrimary)], [c], canPrimaryRender)

/-- The run segmenter of example-2 (lines 61-86): split `text` into runs, each
tagged with the flag saying whether the primary font renders its characters.
`use_primary` starts out `false` (line 64); the trailing non-empty current run
is flushed after the loop (lines 84-86). -/
def segmentRuns (p : Char → Bool) (text : List Char) : List (List Char × Bool) :=
  let st := text.foldl (segStep p) ([], [], false)
  if st.2.1.isEmpty then st.1 else st.1 ++ [(st.2.1, st.2.2)]

/-- Concatenation of the run texts, in order. -/
def joinRuns (rs : List (List Char × Bool)) : List Char :=
  (rs.map Prod.fst).flatten

lemma joinRuns_append (a b : List (List Char × Bool)) :
    joinRuns (a ++ b) = joinRuns a ++ joinRuns b := by
  simp [joinRuns]

lemma segStep_join (p : Char → Bool) (st : List (List Char × Bool) × List Char × Bool)
    (c : Char) :
    joinRuns (segStep p st c).1 ++ (segStep p st c).2.1
      = (joinRuns st.1 ++ st.2.1) ++ [c] := by
  rcases st with ⟨runs, current, usePrimary⟩
  by_cases h : current.isEmpty
  · simp [segStep, h]
  · by_cases h2 : p c = usePrimary
    · simp [segStep, h, h2]
    · simp [segStep, h, h2, joinRuns_append, joinRuns]

lemma segFold_join (p : Char → Bool) (text : List Char) :
    ∀ st : List (List Char × Bool) × List Char × Bool,
      joinRuns (text.foldl (segStep p) st).1 ++ (text.foldl (segStep p) st).2.1
        = (joinRuns st.1 ++ st.2.1) ++ text := by
  induction text with
  | nil => intro st; simp
  | cons c rest ih =>
      intro st
      have h := segStep_join p st c
      calc joinRuns ((rest.foldl (segStep p) (segStep p st c))).1
              ++ ((rest.foldl (segStep p) (segStep p st c))).2.1
          = (joinRuns (segStep p st c).1 ++ (segStep p st c).2.1) ++ rest := ih _
        _ = ((joinRuns st.1 ++ st.2.1) ++ [c]) ++ rest := by
              rw [show joinRuns (segStep p st c).1 ++ (segStep p st c).2.1
                    = (joinRuns st.1 ++ st.2.1) ++ [c] from h]
        _ = (joinRuns st.1 ++ st.2.1) ++ (c :: rest) := by simp

/-- C1: For every input text and every primary-font capability predicate, the
Run Segmenter's output runs, concatenated in logical order, equal the input
text exactly — no character dropped, duplicated or reordered — and each run
carries exactly one font tag. -/
theorem segmentRuns_join (p : Char → Bool) (text : List Char) :
    joinRuns (segmentRuns p text) = text := by
  have h := segFold_join p text ([], [], false)
  simp only [joinRuns, List.map_nil, List.flatten_nil, List.nil_append] at h
  unfold segmentRuns
  by_cases hc : (text.foldl (segStep p) ([], [], false)).2.1.isEmpty
  · have : (text.foldl (segStep p) ([], [], false)).2.1 = [] :=
      List.isEmpty_iff.mp hc
    simp only [hc, if_pos]
    calc joinRuns (text.foldl (segStep p) ([], [], false)).1
        = joinRuns (text.foldl (segStep p) ([], [], false)).1
            ++ (text.foldl (segStep p) ([], [], false)).2.1 := by
          rw [this]; simp
      _ = text := h
  · simp only [hc, if_neg, Bool.false_eq_true, not_false_iff]
    rw [joinRuns_append]
    simpa [joinRuns] using h

lemma segFold_extend (p : Char → Bool) (b : Bool) :
    ∀ (xs : List Char) (runs : List (List Char × Bool)) (cur : List Char),
      cur ≠ [] → (∀ c ∈ xs, p c = b) →
      xs.foldl (segStep p) (runs, cur, b) = (runs, cur ++ xs, b) := by
  intro xs
  induction xs with
  | nil => intro runs cur _ _; simp
  | cons x xs ih =>
      intro runs cur hcur hall
      have hx : p x = b := hall x (by simp)
      have hstep : segStep p (runs, cur, b) x = (runs, cur ++ [x], b) := by
        simp [segStep, hcur, hx]
      rw [List.foldl_cons, hstep,
        ih runs (cur ++ [x]) (by simp) (fun c hc => hall c (by simp [hc]))]
      simp

lemma segFold_start (p : Char → Bool) (b up0 : Bool) (x : Char) (xs : List Char)
    (runs : List (List Char × Bool)) (hx : p x = b) (hall : ∀ c ∈ xs, p c = b) :
    (x :: xs).foldl (segStep p) (runs, [], up0) = (runs, x :: xs, b) := by
  have hstep : segStep p (runs, [], up0) x = (runs, [x], b) := by
    simp [segStep, hx]
  rw [List.foldl_cons, hstep, segFold_extend p b xs runs [x] (by simp) hall]
  simp

lemma segFold_switch (p : Char → Bool) (b b' : Bool) (hbb : b' ≠ b)
    (y : Char) (ys : List Char) (runs : List (List Char × Bool)) (cur : List Char)
    (hcur : cur ≠ []) (hy : p y = b') (hall : ∀ c ∈ ys, p c = b') :
    (y :: ys).foldl (segStep p) (runs, cur, b)
      = (runs ++ [(cur, b)], y :: ys, b') := by
  have hstep : segStep p (runs, cur, b) y = (runs ++ [(cur, b)], [y], b') := by
    simp [segStep, hcur, hy, hbb]
  rw [List.foldl_cons, hstep,
    segFold_extend p b' ys (runs ++ [(cur, b)]) [y] (by simp) hall]
  simp

/-- C8: when the primary font's capability switches exactly once mid-string
(a renderable chunk `xs` followed by an unrenderable chunk `ys`), the segmenter
of example-2 yields exactly two runs, the first tagged primary over `xs`, the
second tagged fallback over `ys`; when capability reverts once more (a further
renderable chunk `zs`), it yields exactly three runs. -/
theorem segmentRuns_capability_switch (p : Char → Bool) (xs ys zs : List Char)
    (hx : xs ≠ []) (hy : ys ≠ []) (hz : zs ≠ [])
    (hpx : ∀ c ∈ xs, p c = true) (hpy : ∀ c ∈ ys, p c = false)
    (hpz : ∀ c ∈ zs, p c = true) :
    segmentRuns p (xs ++ ys) = [(xs, true), (ys, false)] ∧
    segmentRuns p (xs ++ ys ++ zs) = [(xs, true), (ys, false), (zs, true)] := by
  rcases xs with _ | ⟨x, xs'⟩
  · exact absurd rfl hx
  rcases ys with _ | ⟨y, ys'⟩
  · exact absurd rfl hy
  rcases zs with _ | ⟨z, zs'⟩
  · exact absurd rfl hz
  have h1 : (x :: xs').foldl (segStep p) ([], [], false) = ([], x :: xs', true) :=
    segFold_start p true false x xs' []
      (hpx x (by simp)) (fun c hc => hpx c (by simp [hc]))
  have h2 : (y :: ys').foldl (segStep p) ([], x :: xs', true)
      = ([(x :: xs', true)], y :: ys', false) := by
    have := segFold_switch p true false (by simp) y ys' [] (x :: xs')
      (by simp) (hpy y (by simp)) (fun c hc => hpy c (by simp [hc]))
    simpa using this
  have h3 : (z :: zs').foldl (segStep p) ([(x :: xs', true)], y :: ys', false)
      = ([(x :: xs', true), (y :: ys', false)], z :: zs', true) := by
    have := segFold_switch p false true (by simp) z zs' [(x :: xs', true)]
      (y :: ys') (by simp) (hpz z (by simp)) (fun c hc => hpz c (by simp [hc]))
    simpa using this
  constructor
  · unfold segmentRuns
    rw [List.foldl_append, h1, h2]
    simp
  · unfold segmentRuns
    rw [List.append_assoc, List.foldl_append, h1, List.foldl_append, h2, h3]
    simp

/-- Concrete instance of `segmentRuns_capability_switch`: a renderable
character, an unrenderable one, then a renderable one again. -/
theorem segmentRuns_capability_switch_witness :
    segmentRuns (fun c => c == 'a') (['a'] ++ ['z']) = [(['a'], true), (['z'], false)] ∧
    segmentRuns (fun c => c == 'a') (['a'] ++ ['z'] ++ ['a'])
      = [(['a'], true), (['z'], false), (['a'], true)] :=
  segmentRuns_capability_switch (fun c => c == 'a') ['a'] ['z'] ['a']
    (by decide) (by decide) (by decide) (by decide) (by decide) (by decide)

/-- example-2 line 132: `font.text_to_glyphs` maps each character of the string
to its glyph id in the font's character map (0 = notdef); `cmap` embeds the
font's character-to-glyph lookup. -/
def text_to_glyphs (cmap : Char → Nat) (s : List Char) : List Nat := s.map cmap

/-- example-2 lines 128-134: `has_glyph(font, c)` builds the one-character
string of `c`, converts it to glyphs, and returns `count > 0 && glyphs[0] != 0`
(the glyph buffer is pre-filled with 0 and `count` is the number of glyphs
produced). -/
def has_glyph (cmap : Char → Nat) (c : Char) : Bool :=
  let glyphs := text_to_glyphs cmap [c]
  decide (0 < glyphs.length) && (glyphs.getD 0 0 != 0)

/-- example-4 line 82: the fallback check over a shaped cluster,
`infos.iter().any(|info| info.codepoint != 0)`; `infos` is the list of glyph
ids the shaping engine produced for the cluster. -/
def has_valid_glyph (infos : List Nat) : Bool := infos.any (fun g => g != 0)

/-- C2: the capability checks report a cluster unsupported exactly when its
shaped output consists of notdef (glyph id 0) markers only: example-4's
any-glyph test over an arbitrary shaped cluster, and example-2's per-character
test over the one-glyph output of `text_to_glyphs` on a single character. -/
theorem canRender_missing_glyph_iff :
    (∀ infos : List Nat, has_valid_glyph infos = false ↔ ∀ g ∈ infos, g = 0) ∧
    (∀ (cmap : Char → Nat) (c : Char),
      has_glyph cmap c = false ↔ ∀ g ∈ text_to_glyphs cmap [c], g = 0) := by
  constructor
  · intro infos
    simp [has_valid_glyph]
  · intro cmap c
    simp [has_glyph, text_to_glyphs]

/-- A shaped glyph as reported by the shaping engine: `codepoint` is the
engine's 32-bit glyph id (`GlyphInfo.codepoint` / `glyph_id`), the offsets and
advance are the engine's native integer units (26.6 fixed point for HarfBuzz
in examples 3-5, font design units for rustybuzz in example-6). -/
structure HbGlyph where
  codepoint : Nat
  x_offset : Int
  y_offset : Int
  x_advance : Int
deriving DecidableEq

/-- Convert 26.6 fixed point to pixels: `v as f32 / 64.0` (examples 3, 4, 5). -/
def q64 (v : Int) : ℚ := (v : ℚ) / 64

/-- Font design units to pixels: `v as f32 * scale` with
`scale = desired_font_size / upem` (example-6 lines 23-24, 57-59). -/
def fuScale (size upem : ℚ) (v : Int) : ℚ := (v : ℚ) * (size / upem)

/-- example-3 lines 51-62: the TextBlob-building loop.  Starting from `x = 0`,
each glyph stores its id narrowed with `as u16`, its point
`(x + x_offset/64, y_offset/64)`, and then `x += x_advance/64`; the final `x`
is `total_width` (line 62). -/
def buildRun (gs : List HbGlyph) : List (Nat × ℚ × ℚ) × ℚ :=
  gs.foldl
    (fun acc g =>
      (acc.1 ++ [(g.codepoint % 2 ^ 16, acc.2 + q64 g.x_offset, q64 g.y_offset)],
       acc.2 + q64 g.x_advance))
    ([], 0)

/-- example-5 lines 51-62, 117 (and example-4's inner loop, lines 123-145):
glyph `i` is placed at `(origin_x + x_accum + x_offset_i, origin_y + y_offset_i)`
and then `x_accum += x_advance_i`, all in 26.6-converted pixels. -/
def placeGlyphs (ox oy : ℚ) (gs : List HbGlyph) : List (ℚ × ℚ) × ℚ :=
  gs.foldl
    (fun acc g =>
      (acc.1 ++ [(ox + acc.2 + q64 g.x_offset, oy + q64 g.y_offset)],
       acc.2 + q64 g.x_advance))
    ([], 0)

/-- example-6 lines 49-61, 110: the same placement loop, but every engine value
is converted with `* scale` (`scale = size / upem`) instead of `/ 64`. -/
def placeGlyphsFU (size upem ox oy : ℚ) (gs : List HbGlyph) : List (ℚ × ℚ) × ℚ :=
  gs.foldl
    (fun acc g =>
      (acc.1 ++ [(ox + acc.2 + fuScale size upem g.x_offset,
                  oy + fuScale size upem g.y_offset)],
       acc.2 + fuScale size upem g.x_advance))
    ([], 0)

/-- The pixel advances of a run under the conversion `conv`, summed. -/
def advSum (conv : Int → ℚ) (gs : List HbGlyph) : ℚ :=
  (gs.map (fun g => conv g.x_advance)).sum

/-- The points the placement loop produces when the cursor starts at `x0`. -/
def placedAt (conv : Int → ℚ) (ox oy : ℚ) : ℚ → List HbGlyph → List (ℚ × ℚ)
  | _, [] => []
  | x0, g :: t =>
      (ox + x0 + conv g.x_offset, oy + conv g.y_offset)
        :: placedAt conv ox oy (x0 + conv g.x_advance) t

lemma placeFold (conv : Int → ℚ) (ox oy : ℚ) :
    ∀ (gs : List HbGlyph) (ps : List (ℚ × ℚ)) (x0 : ℚ),
      gs.foldl
        (fun acc g =>
          (acc.1 ++ [(ox + acc.2 + conv g.x_offset, oy + conv g.y_offset)],
           acc.2 + conv g.x_advance))
        (ps, x0)
      = (ps ++ placedAt conv ox oy x0 gs, x0 + advSum conv gs) := by
  intro gs
  induction gs with
  | nil => intro ps x0; simp [placedAt, advSum]
  | cons g t ih =>
      intro ps x0
      rw [List.foldl_cons, ih]
      simp [placedAt, advSum, add_assoc]

lemma placeGlyphs_eq (ox oy : ℚ) (gs : List HbGlyph) :
    placeGlyphs ox oy gs = (placedAt q64 ox oy 0 gs, advSum q64 gs) := by
  unfold placeGlyphs
  rw [placeFold q64 ox oy gs [] 0]
  simp

lemma placeGlyphsFU_eq (size upem ox oy : ℚ) (gs : List HbGlyph) :
    placeGlyphsFU size upem ox oy gs
      = (placedAt (fuScale size upem) ox oy 0 gs, advSum (fuScale size upem) gs) := by
  unfold placeGlyphsFU
  rw [placeFold (fuScale size upem) ox oy gs [] 0]
  simp

lemma placedAt_get (conv : Int → ℚ) (ox oy : ℚ) :
    ∀ (gs : List HbGlyph) (x0 : ℚ) (i : Nat),
      (placedAt conv ox oy x0 gs)[i]?
        = gs[i]?.map (fun g =>
            (ox + (x0 + advSum conv (gs.take i)) + conv g.x_offset,
             oy + conv g.y_offset)) := by
  intro gs
  induction gs with
  | nil => intro x0 i; simp [placedAt]
  | cons g t ih =>
      intro x0 i
      match i with
      | 0 => simp [placedAt, advSum]
      | i + 1 =>
          rw [show placedAt conv ox oy x0 (g :: t)
                = (ox + x0 + conv g.x_offset, oy + conv g.y_offset)
                  :: placedAt conv ox oy (x0 + conv g.x_advance) t from rfl]
          rw [List.getElem?_cons_succ, List.getElem?_cons_succ, ih]
          cases h : t[i]? with
          | none => simp [h]
          | some gi =>
              simp only [h, Option.map_some, List.take_succ_cons]
              rw [show advSum conv (g :: t.take i)
                    = conv g.x_advance + advSum conv (t.take i) from by
                  simp [advSum]]
              ring_nf

/-- The entries example-3's blob loop stores when the cursor starts at `x0`. -/
def blobEntries : ℚ → List HbGlyph → List (Nat × ℚ × ℚ)
  | _, [] => []
  | x0, g :: t =>
      (g.codepoint % 2 ^ 16, x0 + q64 g.x_offset, q64 g.y_offset)
        :: blobEntries (x0 + q64 g.x_advance) t

lemma buildRunFold :
    ∀ (gs : List HbGlyph) (ps : List (Nat × ℚ × ℚ)) (x0 : ℚ),
      gs.foldl
        (fun acc g =>
          (acc.1 ++ [(g.codepoint % 2 ^ 16, acc.2 + q64 g.x_offset, q64 g.y_offset)],
           acc.2 + q64 g.x_advance))
        (ps, x0)
      = (ps ++ blobEntries x0 gs, x0 + advSum q64 gs) := by
  intro gs
  induction gs with
  | nil => intro ps x0; simp [blobEntries, advSum]
  | cons g t ih =>
      intro ps x0
      rw [List.foldl_cons, ih]
      simp [blobEntries, advSum, add_assoc]

lemma buildRun_eq (gs : List HbGlyph) :
    buildRun gs = (blobEntries 0 gs, advSum q64 gs) := by
  unfold buildRun
  rw [buildRunFold gs [] 0]
  simp

lemma blobEntries_get :
    ∀ (gs : List HbGlyph) (x0 : ℚ) (i : Nat),
      (blobEntries x0 gs)[i]?
        = gs[i]?.map (fun g =>
            (g.codepoint % 2 ^ 16,
             x0 + advSum q64 (gs.take i) + q64 g.x_offset,
             q64 g.y_offset)) := by
  intro gs
  induction gs with
  | nil => intro x0 i; simp [blobEntries]
  | cons g t ih =>
      intro x0 i
      match i with
      | 0 => simp [blobEntries, advSum]
      | i + 1 =>
          rw [show blobEntries x0 (g :: t)
                = (g.codepoint % 2 ^ 16, x0 + q64 g.x_offset, q64 g.y_offset)
                  :: blobEntries (x0 + q64 g.x_advance) t from rfl]
          rw [List.getElem?_cons_succ, List.getElem?_cons_succ, ih]
          cases h : t[i]? with
          | none => simp [h]
          | some gi =>
              simp only [h, Option.map_some, List.take_succ_cons]
              rw [show advSum q64 (g :: t.take i)
                    = q64 g.x_advance + advSum q64 (t.take i) from by
                  simp [advSum]]
              refine congrArg some ?_
              refine Prod.ext rfl (Prod.ext ?_ rfl)
              show x0 + q64 g.x_advance + advSum q64 (t.take i) + q64 gi.x_offset
                = x0 + (q64 g.x_advance + advSum q64 (t.take i)) + q64 gi.x_offset
              ring

/-- C4: the Run Assembler places glyph `i` at
`(x + x_offset_i, y_origin + y_offset_i)` where `x` is the running cursor
(the sum of the previous glyphs' x-advances plus the run origin), then adds
`x_advance_i` to the cursor; the cursor's total displacement over the run is
exactly the sum of the per-glyph x-advances (exact in the rational embedding,
hence within any floating-point tolerance). -/
theorem assembler_cursor_positions (ox oy : ℚ) (gs : List HbGlyph) (i : Nat) :
    (placeGlyphs ox oy gs).2 = (gs.map (fun g => q64 g.x_advance)).sum ∧
    (placeGlyphs ox oy gs).1[i]?
      = gs[i]?.map (fun g =>
          (ox + ((gs.take i).map (fun g2 => q64 g2.x_advance)).sum + q64 g.x_offset,
           oy + q64 g.y_offset)) := by
  constructor
  · rw [placeGlyphs_eq]; rfl
  · rw [placeGlyphs_eq]
    simp only
    rw [placedAt_get]
    cases h : gs[i]? with
    | none => simp [h]
    | some g => simp [h, advSum]

/-- C3: the Shaping Adapter converts engine output to floating-point pixels by
dividing every offset and advance by 64 when the engine reports 26.6 fixed
point (example-3's loop, `buildRun`), and by multiplying every offset and
advance by `size / upem` when the engine reports font design units
(example-6's loop, `placeGlyphsFU`); within one run a single conversion is
applied uniformly to every coordinate of every glyph, never mixing the two. -/
theorem shaping_unit_conversion (size upem ox oy : ℚ) (gs : List HbGlyph) (i : Nat) :
    (∀ v : Int, q64 v = (v : ℚ) / 64) ∧
    (∀ v : Int, fuScale size upem v = (v : ℚ) * (size / upem)) ∧
    (buildRun gs).1[i]?
      = gs[i]?.map (fun g =>
          (g.codepoint % 2 ^ 16,
           ((gs.take i).map (fun g2 => q64 g2.x_advance)).sum + q64 g.x_offset,
           q64 g.y_offset)) ∧
    (buildRun gs).2 = (gs.map (fun g => q64 g.x_advance)).sum ∧
    (placeGlyphsFU size upem ox oy gs).1[i]?
      = gs[i]?.map (fun g =>
          (ox + ((gs.take i).map (fun g2 => fuScale size upem g2.x_advance)).sum
             + fuScale size upem g.x_offset,
           oy + fuScale size upem g.y_offset)) ∧
    (placeGlyphsFU size upem ox oy gs).2
      = (gs.map (fun g => fuScale size upem g.x_advance)).sum := by
  refine ⟨fun v => rfl, fun v => rfl, ?_, ?_, ?_, ?_⟩
  · rw [buildRun_eq]
    simp only
    rw [blobEntries_get]
    cases h : gs[i]? with
    | none => simp [h]
    | some g => simp [h, advSum]
  · rw [buildRun_eq]; rfl
  · rw [placeGlyphsFU_eq]
    simp only
    rw [placedAt_get]
    cases h : gs[i]? with
    | none => simp [h]
    | some g => simp [h, advSum]
  · rw [placeGlyphsFU_eq]; rfl

/-- C10: example-3 line 53 (`glyphs[i] = glyph_infos[i].codepoint as u16`,
likewise example-4 line 128) narrows the engine's 32-bit glyph id to 16 bits:
every stored id equals the engine id modulo `2 ^ 16` (in particular for ids at
least `2 ^ 16`), so two distinct engine ids below `2 ^ 32` can collide in the
layout result. -/
theorem glyph_id_narrowed_u16 (gs : List HbGlyph) (i : Nat) :
    ((buildRun gs).1[i]?.map (fun e => e.1))
      = gs[i]?.map (fun g => g.codepoint % 2 ^ 16) ∧
    ∃ a b : HbGlyph, a.codepoint ≠ b.codepoint ∧ a.codepoint < 2 ^ 32 ∧
      b.codepoint < 2 ^ 32 ∧ 2 ^ 16 ≤ a.codepoint ∧
      (buildRun [a]).1[0]? = (buildRun [b]).1[0]? := by
  constructor
  · rw [buildRun_eq]
    simp only
    rw [blobEntries_get]
    cases h : gs[i]? with
    | none => simp [h]
    | some g => simp [h]
  · refine ⟨⟨2 ^ 16, 0, 0, 0⟩, ⟨0, 0, 0, 0⟩, by decide, by norm_num, by norm_num,
      le_refl _, ?_⟩
    norm_num [buildRun, q64]

/-- example-3 lines 77-89: the right-alignment procedure for the RTL layout.
`canvas.translate((origin_x + total_width, origin_y))` followed by
`canvas.scale((-1.0, 1.0))` maps a blob-space point `p` to the device point
`(origin_x + total_width + (-1) * p.x, origin_y + p.y)`. -/
def mirrorTransform (ox oy W : ℚ) (p : ℚ × ℚ) : ℚ × ℚ :=
  (ox + W + (-1) * p.1, oy + p.2)

/-- C5 counterexample: a single-glyph RTL layout with advance 640 (10 px) and
anchor `origin_x = 50`.  The only glyph — in particular the last logical
glyph — sits at blob x-coordinate 0 and extends over blob [0, 10]; under the
mirror transform it is drawn over the device interval [50, 60], so its visual
right edge (the mirrored image of its blob position) is 60 = anchor + total
width, not the anchor 50 the claim requires. -/
theorem rtl_right_edge_counterexample :
    (buildRun [⟨1, 0, 0, 640⟩]).2 = 10 ∧
    (buildRun [⟨1, 0, 0, 640⟩]).1 = [(1, 0, 0)] ∧
    (mirrorTransform 50 100 (buildRun [⟨1, 0, 0, 640⟩]).2 (0, 0)).1 = 60 ∧
    (mirrorTransform 50 100 (buildRun [⟨1, 0, 0, 640⟩]).2 (0, 0)).1 ≠ 50 := by
  refine ⟨by norm_num [buildRun, q64], by norm_num [buildRun, q64],
    by norm_num [buildRun, q64, mirrorTransform],
    by norm_num [buildRun, q64, mirrorTransform]⟩

/-- C5 amended: the mirror procedure maps blob coordinate `x` to
`anchor_x + W + (-1) * x`.  The shaped buffer's first glyph (for an
RTL-shaped buffer, the last logical glyph) sits at blob x-coordinate
`x_offset_0 / 64`, and its visual right edge lands at
`anchor_x + W - x_offset_0 / 64` — `anchor_x + W` when its offset is zero —
while blob coordinate `W` (the block's far end, its left edge after
mirroring) lands exactly at `anchor_x`; the block spans
`[anchor_x, anchor_x + W]`, its right edge at `anchor_x + total_width`, not
at `anchor_x`. -/
theorem rtl_mirror_alignment (ox oy : ℚ) (g0 : HbGlyph) (rest : List HbGlyph) :
    (buildRun (g0 :: rest)).1[0]?
      = some (g0.codepoint % 2 ^ 16, q64 g0.x_offset, q64 g0.y_offset) ∧
    (mirrorTransform ox oy (buildRun (g0 :: rest)).2
        (q64 g0.x_offset, q64 g0.y_offset)).1
      = ox + (buildRun (g0 :: rest)).2 - q64 g0.x_offset ∧
    (mirrorTransform ox oy (buildRun (g0 :: rest)).2
        ((buildRun (g0 :: rest)).2, 0)).1 = ox := by
  refine ⟨?_, ?_, ?_⟩
  · rw [buildRun_eq]
    simp [blobEntries]
  · simp only [mirrorTransform]
    ring
  · simp only [mirrorTransform]
    ring

/-- A segment of a FreeType outline contour (example-5 lines 84-107,
example-6 lines 77-100): line, quadratic Bezier or cubic Bezier, with control
and end points in the engine's fixed-point units. -/
inductive Curve where
  | line (p : Int × Int)
  | bezier2 (p1 p2 : Int × Int)
  | bezier3 (p1 p2 p3 : Int × Int)
deriving DecidableEq

/-- A contour of a FreeType outline: its start point and its segments. -/
structure Contour where
  start : Int × Int
  curves : List Curve
deriving DecidableEq

/-- A Skia path command as issued by the conversion loops
(`move_to`, `line_to`, `quad_to`, `cubic_to`, `close`). -/
inductive PathCmd where
  | moveTo (p : ℚ × ℚ)
  | lineTo (p : ℚ × ℚ)
  | quadTo (p1 p2 : ℚ × ℚ)
  | cubicTo (p1 p2 p3 : ℚ × ℚ)
  | close
deriving DecidableEq

/-- Point conversion of the outline loops (example-5 lines 79-80 and every
segment case; identically example-6): `x as f32 / 64.0` and
`(-y) as f32 / 64.0` — divide by 64, negate the y-axis. -/
def convPt (p : Int × Int) : ℚ × ℚ := ((p.1 : ℚ) / 64, ((-p.2 : Int) : ℚ) / 64)

/-- The path command emitted for one outline segment (example-5 lines 85-107):
every control and end point goes through `convPt`. -/
def curveCmd : Curve → PathCmd
  | .line p => .lineTo (convPt p)
  | .bezier2 p1 p2 => .quadTo (convPt p1) (convPt p2)
  | .bezier3 p1 p2 p3 => .cubicTo (convPt p1) (convPt p2) (convPt p3)

/-- example-5 lines 72-110 (identically example-6 lines 70-103): the
outline-to-path loop.  For each contour: `path.move_to(converted start)`,
then one command per segment, then `path.close()`; the path accumulates
across contours. -/
def outlineToPath (contours : List Contour) : List PathCmd :=
  contours.foldl
    (fun path c =>
      (c.curves.foldl (fun acc k => acc ++ [curveCmd k])
        (path ++ [PathCmd.moveTo (convPt c.start)])) ++ [PathCmd.close])
    []

/-- The declarative shape of one converted contour: a `moveTo` at the
converted start point, the converted segments in order, and an explicit
`close` after the last segment. -/
def contourCmds (c : Contour) : List PathCmd :=
  PathCmd.moveTo (convPt c.start) :: (c.curves.map curveCmd ++ [PathCmd.close])

lemma curveFold (ks : List Curve) :
    ∀ acc : List PathCmd,
      ks.foldl (fun acc k => acc ++ [curveCmd k]) acc = acc ++ ks.map curveCmd := by
  induction ks with
  | nil => intro acc; simp
  | cons k ks ih =>
      intro acc
      rw [List.foldl_cons, ih]
      simp

lemma outlineFold (contours : List Contour) :
    ∀ acc : List PathCmd,
      contours.foldl
        (fun path c =>
          (c.curves.foldl (fun acc k => acc ++ [curveCmd k])
            (path ++ [PathCmd.moveTo (convPt c.start)])) ++ [PathCmd.close])
        acc
      = acc ++ (contours.map contourCmds).flatten := by
  induction contours with
  | nil => intro acc; simp
  | cons c cs ih =>
      intro acc
      rw [List.foldl_cons, curveFold, ih]
      simp [contourCmds]

/-- C6: the Outline-to-Path Converter emits, for each contour, a `moveTo` at
the converted start point, one converted command per line/quadratic/cubic
segment in order, and an explicit `close` after the contour's last segment;
every point `(ox, oy)` is converted to `(ox / 64, -(oy / 64))`, dividing by
64 and inverting the vertical axis. -/
theorem outline_path_contours_closed (contours : List Contour) :
    outlineToPath contours = (contours.map contourCmds).flatten ∧
    (∀ x y : Int, convPt (x, y) = ((x : ℚ) / 64, -((y : ℚ) / 64))) ∧
    (∀ c : Contour, contourCmds c
      = PathCmd.moveTo (convPt c.start) :: (c.curves.map curveCmd ++ [PathCmd.close])) := by
  refine ⟨?_, ?_, fun c => rfl⟩
  · unfold outlineToPath
    rw [outlineFold]
    simp
  · intro x y
    simp [convPt]
    ring

/-- One glyph of example-5's main loop (lines 51-118; identically example-6):
the shaped position data plus the outcome of `ft_face.load_glyph` followed by
`glyph_slot.outline()`: `.error e` when the engine signals error code `e`
(propagated by the `?` operator, lines 65-67), `.ok none` when the glyph has
no scalable outline, `.ok (some o)` when an outline exists. -/
structure GlyphEntry where
  pos : HbGlyph
  load : Except Nat (Option (List Contour))

/-- Translate a point by `(dx, dy)` (Skia's `path.offset`). -/
def offsetPt (dx dy : ℚ) (p : ℚ × ℚ) : ℚ × ℚ := (p.1 + dx, p.2 + dy)

/-- Translate one path command by `(dx, dy)`. -/
def offsetCmd (dx dy : ℚ) : PathCmd → PathCmd
  | .moveTo p => .moveTo (offsetPt dx dy p)
  | .lineTo p => .lineTo (offsetPt dx dy p)
  | .quadTo p1 p2 => .quadTo (offsetPt dx dy p1) (offsetPt dx dy p2)
  | .cubicTo p1 p2 p3 =>
      .cubicTo (offsetPt dx dy p1) (offsetPt dx dy p2) (offsetPt dx dy p3)
  | .close => .close

/-- Translate every command of the path, Skia's
`path.offset((glyph_origin_x, glyph_origin_y))` (example-5 line 112). -/
def offsetPath (dx dy : ℚ) (cmds : List PathCmd) : List PathCmd :=
  cmds.map (offsetCmd dx dy)

/-- example-5 main loop, lines 51-118 (identically example-6 lines 49-111):
process the glyphs in order with running cursor `x`.  For each glyph:
`load_glyph` (its error aborts the whole call through `?`); if an outline is
present, convert it to a path and offset it to
`(origin_x + x + x_offset, origin_y + y_offset)`; finally `x += x_advance`.
Returns the drawn paths in order and the final cursor. -/
def renderGlyphs (ox oy : ℚ) :
    List GlyphEntry → ℚ → Except Nat (List (List PathCmd) × ℚ)
  | [], x => .ok ([], x)
  | g :: rest, x =>
    match g.load with
    | .error e => .error e
    | .ok none => renderGlyphs ox oy rest (x + q64 g.pos.x_advance)
    | .ok (some outline) =>
      match renderGlyphs ox oy rest (x + q64 g.pos.x_advance) with
      | .error e => .error e
      | .ok (paths, xf) =>
          .ok (offsetPath (ox + x + q64 g.pos.x_offset) (oy + q64 g.pos.y_offset)
                 (outlineToPath outline) :: paths, xf)

/-- C7: a glyph whose engine load succeeds but which has no scalable outline
(`.ok none`) is skipped without an error: the layout call behaves exactly as
if the loop continued at the remaining glyphs with the cursor advanced — no
path, not even an empty one, is produced for the glyph, and the remaining
glyphs are processed unchanged. -/
theorem missing_outline_skipped (ox oy x : ℚ) (g : GlyphEntry)
    (rest : List GlyphEntry) (h : g.load = Except.ok none) :
    renderGlyphs ox oy (g :: rest) x
      = renderGlyphs ox oy rest (x + q64 g.pos.x_advance) := by
  simp only [renderGlyphs, h]

/-- Concrete instance of `missing_outline_skipped`: a bitmap-only glyph is
skipped and the call continues (and, with no further glyphs, succeeds). -/
theorem missing_outline_skipped_witness :
    renderGlyphs 0 0 [⟨⟨1, 0, 0, 640⟩, Except.ok none⟩] 0
      = renderGlyphs 0 0 []
          (0 + q64 (HbGlyph.mk 1 0 0 640).x_advance) :=
  missing_outline_skipped 0 0 0 ⟨⟨1, 0, 0, 640⟩, Except.ok none⟩ [] rfl

/-- C9 amended: a font-load or scale-configuration error from the engine
aborts the entire layout call, not just the affected glyph: however many
glyphs were already successfully assembled before the failing one, the call
returns exactly the descriptive engine error, and the assembled path data is
discarded rather than returned alongside the failure. -/
theorem engine_error_aborts_layout (ox oy : ℚ) (e : Nat) :
    ∀ (pre : List GlyphEntry) (g : GlyphEntry) (rest : List GlyphEntry) (x : ℚ),
      (∀ p ∈ pre, ∃ o, p.load = Except.ok o) → g.load = Except.error e →
      renderGlyphs ox oy (pre ++ g :: rest) x = Except.error e := by
  intro pre
  induction pre with
  | nil =>
      intro g rest x _ hg
      simp only [List.nil_append, renderGlyphs, hg]
  | cons p ps ih =>
      intro g rest x hpre hg
      obtain ⟨o, ho⟩ := hpre p (by simp)
      have hrest := ih g rest (x + q64 p.pos.x_advance)
        (fun q hq => hpre q (by simp [hq])) hg
      cases o with
      | none =>
          simp only [List.cons_append, renderGlyphs, ho, List.append_eq]
          exact hrest
      | some outline =>
          simp only [List.cons_append, renderGlyphs, ho, List.append_eq, hrest]

/-- Concrete instance of `engine_error_aborts_layout`: a successfully
assembled glyph followed by a failing one still yields only the error. -/
theorem engine_error_aborts_layout_witness :
    renderGlyphs 0 0
      ([⟨⟨1, 0, 0, 640⟩, Except.ok (some [⟨(0, 0), []⟩])⟩]
        ++ ⟨⟨2, 0, 0, 640⟩, Except.error 7⟩ :: []) 0
      = Except.error 7 :=
  engine_error_aborts_layout 0 0 7
    [⟨⟨1, 0, 0, 640⟩, Except.ok (some [⟨(0, 0), []⟩])⟩]
    ⟨⟨2, 0, 0, 640⟩, Except.error 7⟩ [] 0
    (by intro p hp
        simp only [List.mem_singleton] at hp
        subst hp
        exact ⟨some [⟨(0, 0), []⟩], rfl⟩)
    rfl

/-- C9 counterexample: with one successfully converted glyph followed by a
glyph whose load fails with engine error 7, the layout call returns only
`Except.error 7` — while the one-glyph call does assemble and return the
first glyph's path, showing that a successfully assembled prefix existed and
was discarded by the failing call instead of being returned with the error. -/
theorem engine_error_discards_prefix_counterexample :
    renderGlyphs 0 0
      [⟨⟨1, 0, 0, 640⟩, Except.ok (some [⟨(0, 0), []⟩])⟩,
       ⟨⟨2, 0, 0, 640⟩, Except.error 7⟩] 0
      = Except.error 7 ∧
    renderGlyphs 0 0 [⟨⟨1, 0, 0, 640⟩, Except.ok (some [⟨(0, 0), []⟩])⟩] 0
      = Except.ok ([[PathCmd.moveTo (0, 0), PathCmd.close]], 10) := by
  constructor
  · simp [renderGlyphs]
  · simp [renderGlyphs, outlineToPath, offsetPath, offsetCmd, offsetPt, convPt, q64]
    norm_num
